import Mathlib

set_option maxHeartbeats 1000000
set_option maxRecDepth 10000

namespace UpdatePeer

/-- Path of the single file the script reads and writes (source line 3). -/
def file_path : String := "src/hooks/use-peer-game.ts"

/-- Search text of the first replacement rule (source lines 9-10). -/
def old_init_peer : String :=
  "    const initPeer = async () => \x7b\n      const peerOptions: ConstructorParameters<typeof Peer>[1] = \x7b\x7d"

/-- Replacement text of the first rule (source lines 11-13). -/
def new_init_peer : String :=
  "    const initPeer = async () => \x7b\n      const \x7b default: Peer \x7d = await import(\x27peerjs\x27)\n      const peerOptions: ConstructorParameters<typeof Peer>[1] = \x7b\x7d"

/-- Search text of the second replacement rule (source lines 18-19). -/
def old_join_guest : String :=
  "    const joinAsGuest = () => \x7b\n      const peerOptions: ConstructorParameters<typeof Peer>[1] = \x7b\x7d"

/-- Replacement text of the second rule (source lines 20-22). -/
def new_join_guest : String :=
  "    const joinAsGuest = async () => \x7b\n      const \x7b default: Peer \x7d = await import(\x27peerjs\x27)\n      const peerOptions: ConstructorParameters<typeof Peer>[1] = \x7b\x7d"

/-- Fuel-indexed core of Python `str.replace` for a nonempty search string
`a :: tl`: scan left to right and replace each leftmost non-overlapping
occurrence by `repl`.  When the fuel is at least the length of the input
the fuel never runs out, so the `0` arm is irrelevant there. -/
def pyReplaceF (a : Char) (tl repl : List Char) : Nat → List Char → List Char
  | _, [] => []
  | 0, s => s
  | fuel + 1, c :: rest =>
    if (a :: tl).isPrefixOf (c :: rest) then
      repl ++ pyReplaceF a tl repl fuel (rest.drop tl.length)
    else
      c :: pyReplaceF a tl repl fuel rest

/-- Model of Python `s.replace(search, repl)` with the default unbounded
count.  The empty-search case mirrors Python, which inserts the replacement
before every character and once at the end. -/
def pyReplace (s search repl : List Char) : List Char :=
  match search with
  | [] => repl ++ s.foldr (fun c acc => c :: (repl ++ acc)) []
  | a :: tl => pyReplaceF a tl repl s.length s

/-- Fuel-indexed core of Python `s.count(search)` for a nonempty search
string: count leftmost non-overlapping occurrences. -/
def countOccF (a : Char) (tl : List Char) : Nat → List Char → Nat
  | _, [] => 0
  | 0, _ => 0
  | fuel + 1, c :: rest =>
    if (a :: tl).isPrefixOf (c :: rest) then
      countOccF a tl fuel (rest.drop tl.length) + 1
    else
      countOccF a tl fuel rest

/-- Model of Python `s.count(search)`: the number of non-overlapping
occurrences scanned from the left.  For the empty search Python returns
`len(s) + 1`. -/
def countOcc (s search : List Char) : Nat :=
  match search with
  | [] => s.length + 1
  | a :: tl => countOccF a tl s.length s

/-- Composition of the two replacements exactly as the script performs them
on the in-memory content (source lines 15 and 24). -/
def transform (c : List Char) : List Char :=
  pyReplace (pyReplace c old_init_peer.data new_init_peer.data)
    old_join_guest.data new_join_guest.data

/-- Events the script performs against the outside world. -/
inductive Ev where
  | readF : String → Ev
  | writeF : String → Ev
  | printLine : String → Ev
deriving DecidableEq

/-- State of the file system as the script sees it: file contents by path
(`none` when opening the path for reading fails) and whether opening a path
for writing succeeds. -/
structure FState where
  files : String → Option (List Char)
  writable : String → Bool

/-- Result of one run of the script: final file-system state, the lines
printed on standard output, the process exit code, and the trace of
external events in order. -/
structure Outcome where
  fs : FState
  stdout : List String
  exitCode : Nat
  events : List Ev

/-- Shallow embedding of the whole script (source lines 3-29): open and
read the fixed file, apply the two replacements in sequence, open the same
file for writing and write the result back, then print the confirmation.
An unhandled file error aborts the run with exit code 1 before any later
effect, leaving the file system unchanged. -/
def runScript (st : FState) : Outcome :=
  match st.files file_path with
  | none => { fs := st, stdout := [], exitCode := 1, events := [] }
  | some content =>
    let content1 := pyReplace content old_init_peer.data new_init_peer.data
    let content2 := pyReplace content1 old_join_guest.data new_join_guest.data
    if st.writable file_path then
      { fs := { st with
                  files := fun p => if p = file_path then some content2 else st.files p },
        stdout := ["File updated successfully"],
        exitCode := 0,
        events := [Ev.readF file_path, Ev.writeF file_path,
                   Ev.printLine "File updated successfully"] }
    else
      { fs := st, stdout := [], exitCode := 1, events := [Ev.readF file_path] }

theorem pyReplaceF_nil (a : Char) (tl repl : List Char) (n : Nat) :
    pyReplaceF a tl repl n [] = [] := by
  cases n <;> rfl

theorem countOccF_nil (a : Char) (tl : List Char) (n : Nat) :
    countOccF a tl n [] = 0 := by
  cases n <;> rfl

theorem pyReplaceF_fuel (a : Char) (tl repl : List Char) :
    ∀ (m n : Nat) (s : List Char), s.length ≤ m → s.length ≤ n →
      pyReplaceF a tl repl m s = pyReplaceF a tl repl n s := by
  intro m
  induction m with
  | zero =>
    intro n s hm _
    have hs : s = [] := List.eq_nil_of_length_eq_zero (Nat.le_zero.mp hm)
    subst hs
    simp [pyReplaceF_nil]
  | succ m ih =>
    intro n s hm hn
    cases s with
    | nil => simp [pyReplaceF_nil]
    | cons c rest =>
      cases n with
      | zero => simp at hn
      | succ n =>
        have hm' : rest.length ≤ m := by
          simp only [List.length_cons] at hm; omega
        have hn' : rest.length ≤ n := by
          simp only [List.length_cons] at hn; omega
        by_cases h : ((a :: tl).isPrefixOf (c :: rest)) = true
        · simp only [pyReplaceF, h, if_true]
          have hd : (rest.drop tl.length).length ≤ m := by
            simp only [List.length_drop]; omega
          have hd' : (rest.drop tl.length).length ≤ n := by
            simp only [List.length_drop]; omega
          rw [ih n _ hd hd']
        · simp only [pyReplaceF]
          rw [if_neg h, if_neg h, ih n rest hm' hn']

theorem countOccF_fuel (a : Char) (tl : List Char) :
    ∀ (m n : Nat) (s : List Char), s.length ≤ m → s.length ≤ n →
      countOccF a tl m s = countOccF a tl n s := by
  intro m
  induction m with
  | zero =>
    intro n s hm _
    have hs : s = [] := List.eq_nil_of_length_eq_zero (Nat.le_zero.mp hm)
    subst hs
    simp [countOccF_nil]
  | succ m ih =>
    intro n s hm hn
    cases s with
    | nil => simp [countOccF_nil]
    | cons c rest =>
      cases n with
      | zero => simp at hn
      | succ n =>
        have hm' : rest.length ≤ m := by
          simp only [List.length_cons] at hm; omega
        have hn' : rest.length ≤ n := by
          simp only [List.length_cons] at hn; omega
        by_cases h : ((a :: tl).isPrefixOf (c :: rest)) = true
        · simp only [countOccF, h, if_true]
          have hd : (rest.drop tl.length).length ≤ m := by
            simp only [List.length_drop]; omega
          have hd' : (rest.drop tl.length).length ≤ n := by
            simp only [List.length_drop]; omega
          rw [ih n _ hd hd']
        · simp only [countOccF]
          rw [if_neg h, if_neg h, ih n rest hm' hn']

theorem pyReplace_eq_fuel (s : List Char) (a : Char) (tl repl : List Char)
    (n : Nat) (h : s.length ≤ n) :
    pyReplace s (a :: tl) repl = pyReplaceF a tl repl n s :=
  pyReplaceF_fuel a tl repl s.length n s (Nat.le_refl _) h

theorem countOcc_eq_fuel (s : List Char) (a : Char) (tl : List Char)
    (n : Nat) (h : s.length ≤ n) :
    countOcc s (a :: tl) = countOccF a tl n s :=
  countOccF_fuel a tl s.length n s (Nat.le_refl _) h

theorem pref_of_pref_append {w u v : List Char} (h : w <+: u ++ v)
    (hlen : w.length ≤ u.length) : w <+: u := by
  have hw : w = (u ++ v).take w.length := ( List.prefix_iff_eq_take).mp h
  have : (u ++ v).take w.length = u.take w.length := by
    rw [ List.take_append_eq_append_take, Nat.sub_eq_zero_of_le hlen]
    simp
  rw [hw, this]
  exact List.take_prefix _ _

theorem suffix_eq_drop {z l : List Char} (h : z <:+ l) :
    z = l.drop (l.length - z.length) := by
  obtain ⟨t, rfl⟩ := h
  simp [ List.drop_append_eq_append_drop]

theorem infix_append_split {x u v : List Char} (hx : x <:+: u ++ v) :
    x <:+: u ∨ x <:+: v ∨
      ∃ x1 x2, x = x1 ++ x2 ∧ x1 ≠ [] ∧ x2 ≠ [] ∧ x1 <:+ u ∧ x2 <+: v := by
  obtain ⟨s, t, hst⟩ := hx
  have hpref : x <+: (u ++ v).drop s.length := by
    have : (u ++ v).drop s.length = x ++ t := by
      rw [← hst, List.append_assoc]
      exact List.drop_left _ _
    exact this ▸ ⟨t, rfl⟩
  by_cases hs : u.length ≤ s.length
  · right; left
    have : (u ++ v).drop s.length = v.drop (s.length - u.length) := by
      rw [ List.drop_append_eq_append_drop, List.drop_eq_nil_of_le hs]
      simp
    rw [this] at hpref
    exact hpref.isInfix.trans ( List.drop_suffix _ _).isInfix
  · have hs' : s.length < u.length := Nat.lt_of_not_le hs
    have hdecomp : (u ++ v).drop s.length = u.drop s.length ++ v := by
      rw [ List.drop_append_eq_append_drop, Nat.sub_eq_zero_of_le (Nat.le_of_lt hs')]
      simp
    rw [hdecomp] at hpref
    by_cases hxlen : x.length ≤ (u.drop s.length).length
    · left
      have : x <+: u.drop s.length := pref_of_pref_append hpref hxlen
      exact this.isInfix.trans ( List.drop_suffix _ _).isInfix
    · right; right
      have hxlen' : (u.drop s.length).length ≤ x.length := Nat.le_of_not_le hxlen
      have hux : u.drop s.length <+: x :=
        List.prefix_of_prefix_length_le (List.prefix_append _ _) hpref hxlen'
      obtain ⟨x2, hx2⟩ := hux
      refine ⟨u.drop s.length, x2, hx2.symm, ?_, ?_, List.drop_suffix _ _, ?_⟩
      · intro hnil
        rw [List.drop_eq_nil_iff] at hnil
        omega
      · intro hnil
        subst hnil
        rw [List.append_nil] at hx2
        rw [← hx2] at hxlen
        exact hxlen (Nat.le_refl _)
      · rw [← hx2] at hpref
        obtain ⟨t2, ht2⟩ := hpref
        rw [List.append_assoc] at ht2
        exact ⟨t2, List.append_cancel_left ht2⟩

theorem replace_length (a : Char) (tl repl : List Char) :
    ∀ (fuel : Nat) (s : List Char), s.length ≤ fuel →
      (pyReplaceF a tl repl fuel s).length + countOccF a tl fuel s * (a :: tl).length
        = s.length + countOccF a tl fuel s * repl.length := by
  intro fuel
  induction fuel with
  | zero =>
    intro s hs
    have hnil : s = [] := List.eq_nil_of_length_eq_zero (Nat.le_zero.mp hs)
    subst hnil
    simp [pyReplaceF_nil, countOccF_nil]
  | succ fuel ih =>
    intro s hs
    cases s with
    | nil => simp [pyReplaceF_nil, countOccF_nil]
    | cons c rest =>
      have hr : rest.length ≤ fuel := by
        simp only [List.length_cons] at hs; omega
      by_cases h : ((a :: tl).isPrefixOf (c :: rest)) = true
      · have hpre : (a :: tl) <+: (c :: rest) := ( List.isPrefixOf_iff_prefix).mp h
        have hlen : tl.length ≤ rest.length := by
          have := hpre.length_le
          simp only [List.length_cons] at this
          omega
        have hd : (rest.drop tl.length).length ≤ fuel := by
          simp only [List.length_drop]; omega
        have ihd := ih (rest.drop tl.length) hd
        simp only [List.length_drop, List.length_cons] at ihd
        simp only [pyReplaceF, countOccF]
        rw [if_pos h, if_pos h]
        simp only [List.length_append, List.length_cons, Nat.add_mul, Nat.one_mul]
        omega
      · have ihr := ih rest hr
        simp only [List.length_cons] at ihr
        simp only [pyReplaceF, countOccF]
        rw [if_neg h, if_neg h]
        simp only [List.length_cons]
        omega

theorem replace_id_of_no_occ (a : Char) (tl repl : List Char) :
    ∀ (fuel : Nat) (s : List Char), s.length ≤ fuel →
      ¬ (a :: tl) <:+: s → pyReplaceF a tl repl fuel s = s := by
  intro fuel
  induction fuel with
  | zero =>
    intro s hs _
    have hnil : s = [] := List.eq_nil_of_length_eq_zero (Nat.le_zero.mp hs)
    subst hnil
    exact pyReplaceF_nil a tl repl 0
  | succ fuel ih =>
    intro s hs hocc
    cases s with
    | nil => exact pyReplaceF_nil a tl repl _
    | cons c rest =>
      have hr : rest.length ≤ fuel := by
        simp only [List.length_cons] at hs; omega
      by_cases h : ((a :: tl).isPrefixOf (c :: rest)) = true
      · exact absurd (( List.isPrefixOf_iff_prefix).mp h).isInfix hocc
      · simp only [pyReplaceF]
        rw [if_neg h, ih rest hr fun hi => hocc ( List.infix_cons hi)]

theorem pref_reflect (a : Char) (tl repl x : List Char)
    (hR1 : ∀ k, k < x.length → ¬ (x.drop k) <+: repl)
    (hLen : x.length ≤ repl.length) :
    ∀ (fuel : Nat) (s : List Char), s.length ≤ fuel →
      ∀ w, w <:+ x → w ≠ [] → w <+: pyReplaceF a tl repl fuel s → w <+: s := by
  intro fuel
  induction fuel with
  | zero =>
    intro s hs w _ hwne hw
    have hnil : s = [] := List.eq_nil_of_length_eq_zero (Nat.le_zero.mp hs)
    subst hnil
    rw [pyReplaceF_nil] at hw
    exact absurd (List.prefix_nil.mp hw) hwne
  | succ fuel ih =>
    intro s hs w hwsuf hwne hw
    cases s with
    | nil =>
      rw [pyReplaceF_nil] at hw
      exact absurd (List.prefix_nil.mp hw) hwne
    | cons c rest =>
      have hr : rest.length ≤ fuel := by
        simp only [List.length_cons] at hs; omega
      by_cases h : ((a :: tl).isPrefixOf (c :: rest)) = true
      · exfalso
        simp only [pyReplaceF] at hw
        rw [if_pos h] at hw
        have hwlen : w.length ≤ repl.length :=
          Nat.le_trans hwsuf.length_le hLen
        have hwrepl : w <+: repl := pref_of_pref_append hw hwlen
        have hk : w = x.drop (x.length - w.length) := suffix_eq_drop hwsuf
        have hklt : x.length - w.length < x.length := by
          have : 0 < w.length := List.length_pos.mpr hwne
          have : 0 < x.length := by
            have := hwsuf.length_le
            omega
          omega
        exact hR1 _ hklt (hk ▸ hwrepl)
      · simp only [pyReplaceF] at hw
        rw [if_neg h] at hw
        cases w with
        | nil => exact absurd rfl hwne
        | cons w0 w' =>
          have hw0 : w0 = c ∧ w' <+: pyReplaceF a tl repl fuel rest :=
            List.cons_prefix_cons.mp hw
          cases hw0 with
          | intro hc hw' =>
            subst hc
            cases Decidable.em (w' = []) with
            | inl hnil =>
              subst hnil
              exact List.cons_prefix_cons.mpr ⟨rfl, List.nil_prefix⟩
            | inr hne =>
              have hw'suf : w' <:+ x :=
                List.IsSuffix.trans ⟨[w0], rfl⟩ hwsuf
              have := ih rest hr w' hw'suf hne hw'
              exact List.cons_prefix_cons.mpr ⟨rfl, this⟩

theorem search_not_in_result (a : Char) (tl repl : List Char)
    (hA : ∀ k, k < repl.length →
      ¬ (repl.drop k) <+: (a :: tl) ∧ ¬ (a :: tl) <+: (repl.drop k))
    (hR1 : ∀ k, k < (a :: tl).length → ¬ ((a :: tl).drop k) <+: repl)
    (hLen : (a :: tl).length ≤ repl.length) :
    ∀ (fuel : Nat) (s : List Char), s.length ≤ fuel →
      ¬ (a :: tl) <:+: pyReplaceF a tl repl fuel s := by
  intro fuel
  induction fuel with
  | zero =>
    intro s hs hocc
    have hnil : s = [] := List.eq_nil_of_length_eq_zero (Nat.le_zero.mp hs)
    subst hnil
    rw [pyReplaceF_nil] at hocc
    exact absurd (( List.infix_nil).mp hocc) (List.cons_ne_nil a tl)
  | succ fuel ih =>
    intro s hs hocc
    cases s with
    | nil =>
      rw [pyReplaceF_nil] at hocc
      exact absurd (( List.infix_nil).mp hocc) (List.cons_ne_nil a tl)
    | cons c rest =>
      have hr : rest.length ≤ fuel := by
        simp only [List.length_cons] at hs; omega
      by_cases h : ((a :: tl).isPrefixOf (c :: rest)) = true
      · simp only [pyReplaceF] at hocc
        rw [if_pos h] at hocc
        rcases infix_append_split hocc with hin | hin | hin
        · obtain ⟨s1, t1, h1⟩ := hin
          have hsuf : (a :: tl) ++ t1 <:+ repl :=
            ⟨s1, by rw [← List.append_assoc]; exact h1⟩
          have hget : (a :: tl) ++ t1 = repl.drop (repl.length - ((a :: tl) ++ t1).length) :=
            suffix_eq_drop hsuf
          have hklt : repl.length - ((a :: tl) ++ t1).length < repl.length := by
            have h1len : 0 < ((a :: tl) ++ t1).length := by
              simp [List.length_append]
            have : ((a :: tl) ++ t1).length ≤ repl.length := hsuf.length_le
            omega
          exact (hA _ hklt).2 (hget ▸ List.prefix_append _ _)
        · have hd : (rest.drop tl.length).length ≤ fuel := by
            simp only [List.length_drop]; omega
          exact ih (rest.drop tl.length) hd hin
        · obtain ⟨x1, x2, hx, hx1ne, _, hx1suf, _⟩ := hin
          have hx1pre : x1 <+: (a :: tl) := ⟨x2, hx.symm⟩
          have hget : x1 = repl.drop (repl.length - x1.length) := suffix_eq_drop hx1suf
          have hklt : repl.length - x1.length < repl.length := by
            have : 0 < x1.length := List.length_pos.mpr hx1ne
            have : x1.length ≤ repl.length := hx1suf.length_le
            omega
          exact (hA _ hklt).1 (hget ▸ hx1pre)
      · simp only [pyReplaceF] at hocc
        rw [if_neg h] at hocc
        rcases ( List.infix_cons_iff).mp hocc with hin | hin
        · rcases List.cons_prefix_cons.mp hin with ⟨hac, htl⟩
          subst hac
          cases Decidable.em (tl = []) with
          | inl hnil =>
            subst hnil
            exact h (( List.isPrefixOf_iff_prefix).mpr
              (List.cons_prefix_cons.mpr ⟨rfl, List.nil_prefix⟩))
          | inr hne =>
            have htl' : tl <+: rest :=
              pref_reflect a tl repl (a :: tl) hR1 hLen fuel rest hr tl
                (List.suffix_cons a tl) hne htl
            exact h (( List.isPrefixOf_iff_prefix).mpr
              (List.cons_prefix_cons.mpr ⟨rfl, htl'⟩))
        · exact ih rest hr hin

theorem no_new_occ (a : Char) (tl repl x : List Char) (hx : x ≠ [])
    (hQ1 : ¬ x <:+: repl)
    (hR1 : ∀ k, k < x.length → ¬ (x.drop k) <+: repl)
    (hR3 : ∀ k, k < repl.length → ¬ (repl.drop k) <+: x)
    (hLen : x.length ≤ repl.length) :
    ∀ (fuel : Nat) (s : List Char), s.length ≤ fuel →
      ¬ x <:+: s → ¬ x <:+: pyReplaceF a tl repl fuel s := by
  intro fuel
  induction fuel with
  | zero =>
    intro s hs _ hocc
    have hnil : s = [] := List.eq_nil_of_length_eq_zero (Nat.le_zero.mp hs)
    subst hnil
    rw [pyReplaceF_nil] at hocc
    exact absurd (( List.infix_nil).mp hocc) hx
  | succ fuel ih =>
    intro s hs hsno hocc
    cases s with
    | nil =>
      rw [pyReplaceF_nil] at hocc
      exact absurd (( List.infix_nil).mp hocc) hx
    | cons c rest =>
      have hr : rest.length ≤ fuel := by
        simp only [List.length_cons] at hs; omega
      have hrest : ¬ x <:+: rest := fun hi => hsno ( List.infix_cons hi)
      by_cases h : ((a :: tl).isPrefixOf (c :: rest)) = true
      · simp only [pyReplaceF] at hocc
        rw [if_pos h] at hocc
        have hdropno : ¬ x <:+: rest.drop tl.length := fun hi =>
          hrest (hi.trans ( List.drop_suffix _ _).isInfix)
        have hd : (rest.drop tl.length).length ≤ fuel := by
          simp only [List.length_drop]; omega
        rcases infix_append_split hocc with hin | hin | hin
        · exact hQ1 hin
        · exact ih (rest.drop tl.length) hd hdropno hin
        · obtain ⟨x1, x2, hxeq, hx1ne, _, hx1suf, _⟩ := hin
          have hx1pre : x1 <+: x := ⟨x2, hxeq.symm⟩
          have hget : x1 = repl.drop (repl.length - x1.length) := suffix_eq_drop hx1suf
          have hklt : repl.length - x1.length < repl.length := by
            have : 0 < x1.length := List.length_pos.mpr hx1ne
            have : x1.length ≤ repl.length := hx1suf.length_le
            omega
          exact hR3 _ hklt (hget ▸ hx1pre)
      · simp only [pyReplaceF] at hocc
        rw [if_neg h] at hocc
        rcases ( List.infix_cons_iff).mp hocc with hin | hin
        · cases x with
          | nil => exact hx rfl
          | cons x0 x' =>
            rcases List.cons_prefix_cons.mp hin with ⟨hxc, hx'⟩
            subst hxc
            cases Decidable.em (x' = []) with
            | inl hnil =>
              subst hnil
              exact hsno (List.cons_prefix_cons.mpr
                ⟨rfl, List.nil_prefix⟩).isInfix
            | inr hne =>
              have hx'suf : x' <:+ x0 :: x' := ⟨[x0], rfl⟩
              have hx'rest : x' <+: rest :=
                pref_reflect a tl repl (x0 :: x') hR1 hLen fuel rest hr x'
                  hx'suf hne hx'
              exact hsno (List.cons_prefix_cons.mpr ⟨rfl, hx'rest⟩).isInfix
        · exact ih rest hr hrest hin

theorem pyReplace_cons_pos {a c : Char} {tl rest : List Char} (repl : List Char)
    (h : (a :: tl) <+: (c :: rest)) :
    pyReplace (c :: rest) (a :: tl) repl
      = repl ++ pyReplace (rest.drop tl.length) (a :: tl) repl := by
  show pyReplaceF a tl repl (rest.length + 1) (c :: rest) = _
  simp only [pyReplaceF]
  rw [if_pos (( List.isPrefixOf_iff_prefix).mpr h)]
  congr 1
  exact (pyReplace_eq_fuel _ a tl repl rest.length
    (by simp only [List.length_drop]; omega)).symm

theorem pyReplace_cons_neg {a c : Char} {tl rest : List Char} (repl : List Char)
    (h : ¬ (a :: tl) <+: (c :: rest)) :
    pyReplace (c :: rest) (a :: tl) repl = c :: pyReplace rest (a :: tl) repl := by
  show pyReplaceF a tl repl (rest.length + 1) (c :: rest) = _
  simp only [pyReplaceF]
  rw [if_neg (fun hb => h (( List.isPrefixOf_iff_prefix).mp hb))]
  rfl

theorem pyReplace_no_occ (search repl s : List Char) (hne : search ≠ [])
    (hA : ∀ k, k < repl.length → ¬ (repl.drop k) <+: search ∧ ¬ search <+: (repl.drop k))
    (hR1 : ∀ k, k < search.length → ¬ (search.drop k) <+: repl)
    (hLen : search.length ≤ repl.length) :
    ¬ search <:+: pyReplace s search repl := by
  cases search with
  | nil => exact absurd rfl hne
  | cons a tl =>
    exact search_not_in_result a tl repl hA hR1 hLen s.length s (Nat.le_refl _)

theorem pyReplace_id (search repl s : List Char) (hne : search ≠ [])
    (h : ¬ search <:+: s) : pyReplace s search repl = s := by
  cases search with
  | nil => exact absurd rfl hne
  | cons a tl =>
    exact replace_id_of_no_occ a tl repl s.length s (Nat.le_refl _) h

theorem pyReplace_no_new (search repl x s : List Char) (hne : search ≠ [])
    (hx : x ≠ []) (hQ1 : ¬ x <:+: repl)
    (hR1 : ∀ k, k < x.length → ¬ (x.drop k) <+: repl)
    (hR3 : ∀ k, k < repl.length → ¬ (repl.drop k) <+: x)
    (hLen : x.length ≤ repl.length)
    (hs : ¬ x <:+: s) : ¬ x <:+: pyReplace s search repl := by
  cases search with
  | nil => exact absurd rfl hne
  | cons a tl =>
    exact no_new_occ a tl repl x hx hQ1 hR1 hR3 hLen s.length s (Nat.le_refl _) hs

theorem pyReplace_length (search repl s : List Char) (hne : search ≠ []) :
    (pyReplace s search repl).length + countOcc s search * search.length
      = s.length + countOcc s search * repl.length := by
  cases search with
  | nil => exact absurd rfl hne
  | cons a tl =>
    exact replace_length a tl repl s.length s (Nat.le_refl _)

theorem pyReplace_length_ge (search repl s : List Char) (hne : search ≠ [])
    (hlen : search.length ≤ repl.length) :
    s.length ≤ (pyReplace s search repl).length := by
  have h1 := pyReplace_length search repl s hne
  have h2 : countOcc s search * search.length ≤ countOcc s search * repl.length :=
    Nat.mul_le_mul_left _ hlen
  omega

theorem replace_at_first (a : Char) (tl repl : List Char) :
    ∀ (pre post : List Char),
      (∀ i, i < pre.length → ¬ (a :: tl) <+: ((pre ++ ((a :: tl) ++ post)).drop i)) →
      pyReplace (pre ++ ((a :: tl) ++ post)) (a :: tl) repl
        = pre ++ repl ++ pyReplace post (a :: tl) repl := by
  intro pre
  induction pre with
  | nil =>
    intro post _
    simp only [List.nil_append]
    rw [show (a :: tl) ++ post = a :: (tl ++ post) from rfl]
    rw [pyReplace_cons_pos repl
      (List.cons_prefix_cons.mpr ⟨rfl, List.prefix_append _ _⟩)]
    rw [List.drop_left]
  | cons p pre' ih =>
    intro post hno
    have h0 : ¬ (a :: tl) <+: (p :: (pre' ++ ((a :: tl) ++ post))) :=
      hno 0 (by simp)
    rw [show (p :: pre') ++ ((a :: tl) ++ post)
        = p :: (pre' ++ ((a :: tl) ++ post)) from rfl]
    rw [pyReplace_cons_neg repl h0]
    rw [ih post (fun i hi => hno (i + 1) (by simp only [List.length_cons]; omega))]
    rfl

theorem not_infix_of_drops {x l : List Char} (hx : x ≠ [])
    (h : ∀ k, k < l.length → ¬ x <+: l.drop k) : ¬ x <:+: l := by
  intro hocc
  obtain ⟨s, t, hst⟩ := hocc
  have hpref : x <+: l.drop s.length := by
    have hd : l.drop s.length = x ++ t := by
      rw [← hst, List.append_assoc]
      exact List.drop_left _ _
    rw [hd]
    exact ⟨t, rfl⟩
  have hlt : s.length < l.length := by
    rw [← hst]
    simp only [List.length_append]
    have : 0 < x.length := List.length_pos.mpr hx
    omega
  exact h s.length hlt hpref

theorem old_init_ne_nil : old_init_peer.data ≠ [] := by decide

theorem old_join_ne_nil : old_join_guest.data ≠ [] := by decide

theorem rule1_sideA : ∀ k, k < new_init_peer.data.length →
    ¬ (new_init_peer.data.drop k) <+: old_init_peer.data ∧
      ¬ old_init_peer.data <+: (new_init_peer.data.drop k) := by decide

theorem rule1_sideB : ∀ k, k < old_init_peer.data.length →
    ¬ (old_init_peer.data.drop k) <+: new_init_peer.data := by decide

theorem rule1_len : old_init_peer.data.length ≤ new_init_peer.data.length := by decide

theorem rule2_sideA : ∀ k, k < new_join_guest.data.length →
    ¬ (new_join_guest.data.drop k) <+: old_join_guest.data ∧
      ¬ old_join_guest.data <+: (new_join_guest.data.drop k) := by decide

theorem rule2_sideB : ∀ k, k < old_join_guest.data.length →
    ¬ (old_join_guest.data.drop k) <+: new_join_guest.data := by decide

theorem rule2_len : old_join_guest.data.length ≤ new_join_guest.data.length := by decide

theorem cross_sideB : ∀ k, k < old_init_peer.data.length →
    ¬ (old_init_peer.data.drop k) <+: new_join_guest.data := by decide

theorem cross_sideA : ∀ k, k < new_join_guest.data.length →
    ¬ (new_join_guest.data.drop k) <+: old_init_peer.data := by decide

theorem cross_noOcc : ∀ k, k < new_join_guest.data.length →
    ¬ old_init_peer.data <+: (new_join_guest.data.drop k) := by decide

theorem cross_len : old_init_peer.data.length ≤ new_join_guest.data.length := by decide

theorem cross_no_infix : ¬ old_init_peer.data <:+: new_join_guest.data :=
  not_infix_of_drops old_init_ne_nil cross_noOcc

/-- C1: for every original file content, the content written back equals the
original with the two replacement rules applied in sequence, the second
applied to the output of the first:
`written = replace(replace(original, old_init_peer, new_init_peer),
old_join_guest, new_join_guest)`. -/
theorem written_eq_sequential_composition (st : FState) (orig : List Char)
    (hread : st.files file_path = some orig)
    (hw : st.writable file_path = true) :
    (runScript st).fs.files file_path
      = some (pyReplace (pyReplace orig old_init_peer.data new_init_peer.data)
          old_join_guest.data new_join_guest.data) := by
  simp [runScript, hread, hw]

def wit1Content : List Char := old_init_peer.data ++ '\n' :: old_join_guest.data

def wit1St : FState :=
  { files := fun p => if p = file_path then some wit1Content else none,
    writable := fun _ => true }

/-- Witness for C1 at a content holding one occurrence of each search text. -/
theorem written_eq_sequential_composition_witness :
    (runScript wit1St).fs.files file_path
      = some (pyReplace (pyReplace wit1Content old_init_peer.data new_init_peer.data)
          old_join_guest.data new_join_guest.data) :=
  written_eq_sequential_composition wit1St wit1Content (by simp [wit1St]) rfl

/-- C2: for every content containing a rule's search string N ≥ 1 times,
applying that rule replaces all N occurrences — the output length accounts
for exactly N substitutions — and the result contains zero occurrences of
the search string; moreover the replacement string indeed does not contain
the search string.  Stated for both rules. -/
theorem rule_global_substitution (c : List Char) (N : Nat) :
    (countOcc c old_init_peer.data = N → 1 ≤ N →
      (pyReplace c old_init_peer.data new_init_peer.data).length
          + N * old_init_peer.data.length
        = c.length + N * new_init_peer.data.length
      ∧ ¬ old_init_peer.data <:+:
          pyReplace c old_init_peer.data new_init_peer.data
      ∧ ¬ old_init_peer.data <:+: new_init_peer.data)
    ∧ (countOcc c old_join_guest.data = N → 1 ≤ N →
      (pyReplace c old_join_guest.data new_join_guest.data).length
          + N * old_join_guest.data.length
        = c.length + N * new_join_guest.data.length
      ∧ ¬ old_join_guest.data <:+:
          pyReplace c old_join_guest.data new_join_guest.data
      ∧ ¬ old_join_guest.data <:+: new_join_guest.data) := by
  constructor
  · intro hN _
    refine ⟨?_, ?_, ?_⟩
    · rw [← hN]
      exact pyReplace_length _ _ c old_init_ne_nil
    · exact pyReplace_no_occ _ _ c old_init_ne_nil rule1_sideA rule1_sideB rule1_len
    · exact not_infix_of_drops old_init_ne_nil fun k hk => (rule1_sideA k hk).2
  · intro hN _
    refine ⟨?_, ?_, ?_⟩
    · rw [← hN]
      exact pyReplace_length _ _ c old_join_ne_nil
    · exact pyReplace_no_occ _ _ c old_join_ne_nil rule2_sideA rule2_sideB rule2_len
    · exact not_infix_of_drops old_join_ne_nil fun k hk => (rule2_sideA k hk).2

/-- Witness for C2: the search text itself occurs exactly once in itself and
the rule removes every occurrence. -/
theorem rule_global_substitution_witness :
    countOcc old_init_peer.data old_init_peer.data = 1
    ∧ ¬ old_init_peer.data <:+:
        pyReplace old_init_peer.data old_init_peer.data new_init_peer.data :=
  ⟨by decide,
    ((rule_global_substitution old_init_peer.data 1).1 (by decide) (by decide)).2.1⟩

/-- C3: for every content in which a rule's search string does not occur,
applying that rule leaves the content unchanged.  Stated for both rules. -/
theorem rule_identity_when_absent (c : List Char) :
    (¬ old_init_peer.data <:+: c →
      pyReplace c old_init_peer.data new_init_peer.data = c)
    ∧ (¬ old_join_guest.data <:+: c →
      pyReplace c old_join_guest.data new_join_guest.data = c) :=
  ⟨fun h => pyReplace_id _ _ _ old_init_ne_nil h,
   fun h => pyReplace_id _ _ _ old_join_ne_nil h⟩

/-- Witness for C3 at a small content free of both search texts. -/
theorem rule_identity_when_absent_witness :
    pyReplace "hello".data old_init_peer.data new_init_peer.data = "hello".data :=
  (rule_identity_when_absent "hello".data).1
    (not_infix_of_drops old_init_ne_nil (by decide))

/-- C4: if the file cannot be opened for reading the run aborts with a
nonzero exit code, nothing is printed, and the file system is unchanged;
the same holds when the file cannot be opened for writing at the overwrite
step. -/
theorem file_error_aborts_without_write :
    (∀ st : FState, st.files file_path = none →
      (runScript st).exitCode = 1 ∧ (runScript st).fs = st
        ∧ (runScript st).stdout = [])
    ∧ (∀ st : FState, st.writable file_path = false →
      (runScript st).exitCode = 1 ∧ (runScript st).fs = st
        ∧ (runScript st).stdout = []) := by
  constructor
  · intro st hread
    simp [runScript, hread]
  · intro st hw
    cases hread : st.files file_path with
    | none => simp [runScript, hread]
    | some content => simp [runScript, hread, hw]

def wit4St : FState := { files := fun _ => none, writable := fun _ => false }

/-- Witness for C4 at a file system where the target cannot be read. -/
theorem file_error_aborts_without_write_witness :
    (runScript wit4St).exitCode = 1 ∧ (runScript wit4St).fs = wit4St :=
  ⟨(file_error_aborts_without_write.1 wit4St rfl).1,
   (file_error_aborts_without_write.1 wit4St rfl).2.1⟩

def initHeaderLine : List Char := "    const initPeer = async () => \x7b".data

def importLine : List Char :=
  "      const \x7b default: Peer \x7d = await import(\x27peerjs\x27)".data

def peerOptionsLine : List Char :=
  "      const peerOptions: ConstructorParameters<typeof Peer>[1] = \x7b\x7d".data

/-- C5: on content holding the exact two-line search block of the first
rule once, the rule yields the same content with one extra line inserted
between the function header line and the `const peerOptions` line, all
other content unchanged, and the newline count — hence the line count —
grows by exactly one. -/
theorem rule1_inserts_one_line (pre post : List Char)
    (hpre : ∀ i, i < pre.length →
      ¬ old_init_peer.data <+: ((pre ++ (old_init_peer.data ++ post)).drop i))
    (hpost : ¬ old_init_peer.data <:+: post) :
    pyReplace (pre ++ (old_init_peer.data ++ post))
        old_init_peer.data new_init_peer.data
      = pre ++ (new_init_peer.data ++ post)
    ∧ old_init_peer.data = initHeaderLine ++ '\n' :: peerOptionsLine
    ∧ new_init_peer.data
        = initHeaderLine ++ '\n' :: (importLine ++ '\n' :: peerOptionsLine)
    ∧ List.count '\n'
        (pyReplace (pre ++ (old_init_peer.data ++ post))
          old_init_peer.data new_init_peer.data)
      = List.count '\n' (pre ++ (old_init_peer.data ++ post)) + 1 := by
  have hmain : pyReplace (pre ++ (old_init_peer.data ++ post))
      old_init_peer.data new_init_peer.data
      = pre ++ (new_init_peer.data ++ post) := by
    cases hod : old_init_peer.data with
    | nil => exact absurd hod old_init_ne_nil
    | cons a tl =>
      rw [hod] at hpre hpost
      have key := replace_at_first a tl new_init_peer.data pre post hpre
      rw [pyReplace_id (a :: tl) new_init_peer.data post
        (List.cons_ne_nil a tl) hpost] at key
      rw [key, List.append_assoc]
  refine ⟨hmain, by decide, by decide, ?_⟩
  rw [hmain]
  have h1 : List.count '\n' new_init_peer.data
      = List.count '\n' old_init_peer.data + 1 := by decide
  simp only [List.count_append]
  omega

/-- C5 counterexample: on content holding the two-line block twice, the
rule inserts two lines, so the line count does not grow by exactly one as
the unrestricted claim would require. -/
theorem rule1_line_count_counterexample :
    List.count '\n'
        (pyReplace (old_init_peer.data ++ '\n' :: old_init_peer.data)
          old_init_peer.data new_init_peer.data)
      ≠ List.count '\n' (old_init_peer.data ++ '\n' :: old_init_peer.data) + 1 := by
  decide

def wit5Pre : List Char := "x\n".data

def wit5Post : List Char := "\ny".data

/-- Witness for C5 at a small context around one occurrence of the block. -/
theorem rule1_inserts_one_line_witness :
    pyReplace (wit5Pre ++ (old_init_peer.data ++ wit5Post))
        old_init_peer.data new_init_peer.data
      = wit5Pre ++ (new_init_peer.data ++ wit5Post)
    ∧ List.count '\n'
        (pyReplace (wit5Pre ++ (old_init_peer.data ++ wit5Post))
          old_init_peer.data new_init_peer.data)
      = List.count '\n' (wit5Pre ++ (old_init_peer.data ++ wit5Post)) + 1 :=
  ⟨(rule1_inserts_one_line wit5Pre wit5Post (by decide)
      (not_infix_of_drops old_init_ne_nil (by decide))).1,
   (rule1_inserts_one_line wit5Pre wit5Post (by decide)
      (not_infix_of_drops old_init_ne_nil (by decide))).2.2.2⟩

/-- C6: the success message is printed, with exit code zero, whenever the
run reaches and completes the write step, whatever the content — the same
message for zero, one, or two matching rules, with no verification that any
replacement took effect. -/
theorem success_message_unconditional (st : FState) (content : List Char)
    (hread : st.files file_path = some content)
    (hw : st.writable file_path = true) :
    (runScript st).stdout = ["File updated successfully"]
    ∧ (runScript st).exitCode = 0 := by
  constructor <;> simp [runScript, hread, hw]

def wit6St : FState :=
  { files := fun p => if p = file_path then some "hello".data else none,
    writable := fun _ => true }

/-- Witness for C6 at a content matching zero rules. -/
theorem success_message_unconditional_witness :
    (runScript wit6St).stdout = ["File updated successfully"]
    ∧ (runScript wit6St).exitCode = 0 :=
  success_message_unconditional wit6St "hello".data (by simp [wit6St]) rfl

/-- C7: a successful run touches exactly one file: the event trace is one
read, then one write, then one printed line, all at the path fixed inside
the program; every other path is left untouched; standard output is exactly
one confirmation line. -/
theorem single_file_frame (st : FState)
    (hread : st.files file_path ≠ none)
    (hw : st.writable file_path = true) :
    (runScript st).events
      = [Ev.readF file_path, Ev.writeF file_path,
         Ev.printLine "File updated successfully"]
    ∧ (∀ p, p ≠ file_path → (runScript st).fs.files p = st.files p)
    ∧ (runScript st).stdout = ["File updated successfully"] := by
  cases hc : st.files file_path with
  | none => exact absurd hc hread
  | some content =>
    refine ⟨?_, ?_, ?_⟩
    · simp [runScript, hc, hw]
    · intro p hp
      simp [runScript, hc, hw, hp]
    · simp [runScript, hc, hw]

def wit7St : FState :=
  { files := fun p => if p = file_path then some [] else none,
    writable := fun _ => true }

/-- Witness for C7: the trace at a concrete state, and an unrelated path
left untouched. -/
theorem single_file_frame_witness :
    (runScript wit7St).events
      = [Ev.readF file_path, Ev.writeF file_path,
         Ev.printLine "File updated successfully"]
    ∧ (runScript wit7St).fs.files "other.txt" = wit7St.files "other.txt" :=
  ⟨(single_file_frame wit7St (by simp [wit7St]) rfl).1,
   (single_file_frame wit7St (by simp [wit7St]) rfl).2.1 "other.txt" (by decide)⟩

/-- C8: the complete two-rule transform is idempotent: a second application
finds no occurrence of either search text, since neither replacement
reintroduces one, so it changes nothing. -/
theorem transform_idempotent (c : List Char) :
    transform (transform c) = transform c := by
  have h1 : ¬ old_init_peer.data <:+:
      pyReplace c old_init_peer.data new_init_peer.data :=
    pyReplace_no_occ _ _ c old_init_ne_nil rule1_sideA rule1_sideB rule1_len
  have h2 : ¬ old_init_peer.data <:+: transform c :=
    pyReplace_no_new old_join_guest.data new_join_guest.data
      old_init_peer.data _ old_join_ne_nil old_init_ne_nil cross_no_infix
      cross_sideB cross_sideA cross_len h1
  have h3 : ¬ old_join_guest.data <:+: transform c :=
    pyReplace_no_occ _ _ (pyReplace c old_init_peer.data new_init_peer.data)
      old_join_ne_nil rule2_sideA rule2_sideB rule2_len
  show pyReplace (pyReplace (transform c) old_init_peer.data new_init_peer.data)
      old_join_guest.data new_join_guest.data = transform c
  rw [pyReplace_id _ _ _ old_init_ne_nil h2,
    pyReplace_id _ _ _ old_join_ne_nil h3]

/-- C9: the transform never shrinks the content, and indeed each of the two
replacement strings is strictly longer than its search string. -/
theorem transform_never_shrinks (c : List Char) :
    c.length ≤ (transform c).length
    ∧ old_init_peer.data.length < new_init_peer.data.length
    ∧ old_join_guest.data.length < new_join_guest.data.length := by
  refine ⟨?_, by decide, by decide⟩
  have g1 : c.length
      ≤ (pyReplace c old_init_peer.data new_init_peer.data).length :=
    pyReplace_length_ge _ _ c old_init_ne_nil rule1_len
  have g2 : (pyReplace c old_init_peer.data new_init_peer.data).length
      ≤ (transform c).length :=
    pyReplace_length_ge _ _ _ old_join_ne_nil rule2_len
  exact Nat.le_trans g1 g2

/-- C10: the run is deterministic and depends on nothing but the target
file: two states agreeing on the target file produce the same written
content, the same standard output, and the same exit code. -/
theorem run_depends_only_on_file (st₁ st₂ : FState)
    (hf : st₁.files file_path = st₂.files file_path)
    (hw : st₁.writable file_path = st₂.writable file_path) :
    (runScript st₁).fs.files file_path = (runScript st₂).fs.files file_path
    ∧ (runScript st₁).stdout = (runScript st₂).stdout
    ∧ (runScript st₁).exitCode = (runScript st₂).exitCode := by
  cases hc : st₁.files file_path with
  | none =>
    have hc2 : st₂.files file_path = none := by rw [← hf, hc]
    refine ⟨?_, ?_, ?_⟩ <;> simp [runScript, hc, hc2]
  | some content =>
    have hc2 : st₂.files file_path = some content := by rw [← hf, hc]
    cases hwb : st₁.writable file_path with
    | false =>
      have hw2 : st₂.writable file_path = false := by rw [← hw, hwb]
      refine ⟨?_, ?_, ?_⟩ <;> simp [runScript, hc, hc2, hwb, hw2]
    | true =>
      have hw2 : st₂.writable file_path = true := by rw [← hw, hwb]
      refine ⟨?_, ?_, ?_⟩ <;> simp [runScript, hc, hc2, hwb, hw2]

def wit10aSt : FState :=
  { files := fun p => if p = file_path then some [] else none,
    writable := fun _ => true }

def wit10bSt : FState :=
  { files := fun _ => some [],
    writable := fun p => p == file_path }

/-- Witness for C10: two states agreeing only on the target file give the
same observable run. -/
theorem run_depends_only_on_file_witness :
    (runScript wit10aSt).stdout = (runScript wit10bSt).stdout
    ∧ (runScript wit10aSt).exitCode = (runScript wit10bSt).exitCode :=
  ⟨(run_depends_only_on_file wit10aSt wit10bSt (by simp [wit10aSt, wit10bSt])
      (by simp [wit10aSt, wit10bSt])).2.1,
   (run_depends_only_on_file wit10aSt wit10bSt (by simp [wit10aSt, wit10bSt])
      (by simp [wit10aSt, wit10bSt])).2.2⟩

end UpdatePeer
